import Mathlib

/-!
A shallow embedding of the micromagnetic mean-field relaxation program
(`src/Energy_Term.py` and `src/Mean_Field.py`).

Numpy arrays of shape (Nx, Ny, Nz, 3) are modelled as functions
`Fin Nx → Fin Ny → Fin Nz → Fin 3 → ℝ`; arrays of shape (Nx, Ny, Nz, 1)
drop the trailing singleton axis and are modelled as
`Fin Nx → Fin Ny → Fin Nz → ℝ`.  Floating point arithmetic is modelled by
exact real arithmetic; in this model a division by zero yields 0.
`np.allclose(a, b)` is modelled elementwise as `|a - b| ≤ atol + rtol * |b|`
with the numpy defaults `atol = 1e-8`, `rtol = 1e-5`.
-/

set_option maxRecDepth 8000

noncomputable section

open scoped Classical

namespace Micromag

/-- mu0 = 4 * np.pi * 1e-7 (Energy_Term.py line 5). -/
def mu0 : ℝ := 4 * Real.pi * 1e-7

/-- dx = 2.5e-9 (Energy_Term.py line 6). -/
def dx : ℝ := 2.5e-9

/-- dy = 2.5e-9 (Energy_Term.py line 6). -/
def dy : ℝ := 2.5e-9

/-- dz = 2.5e-9 (Energy_Term.py line 6). -/
def dz : ℝ := 2.5e-9

/-- Nx = 60 (Energy_Term.py line 7). -/
def Nx : ℕ := 60

/-- Ny = 60 (Energy_Term.py line 7). -/
def Ny : ℕ := 60

/-- Nz = 12 (Energy_Term.py line 7). -/
def Nz : ℕ := 12

instance : NeZero Nx := ⟨by decide⟩

instance : NeZero Ny := ⟨by decide⟩

instance : NeZero Nz := ⟨by decide⟩

instance : Nonempty (Fin Nx) := ⟨0⟩

instance : Nonempty (Fin Ny) := ⟨0⟩

instance : Nonempty (Fin Nz) := ⟨0⟩

instance : Nonempty (Fin 3) := ⟨0⟩

/-- A magnetization array of shape (Nx, Ny, Nz, 3), as stored by class `M`. -/
abbrev Field3 := Fin Nx → Fin Ny → Fin Nz → Fin 3 → ℝ

/-- A scalar grid of shape (Nx, Ny, Nz) (numpy shape (Nx, Ny, Nz, 1) with the
trailing singleton axis dropped). -/
abbrev GridR := Fin Nx → Fin Ny → Fin Nz → ℝ

/-- Euclidean norm over the component axis, as computed by
`np.linalg.norm(..., axis=3)`. -/
def norm3 (v : Fin 3 → ℝ) : ℝ := Real.sqrt (v 0 ^ 2 + v 1 ^ 2 + v 2 ^ 2)

/-- Default absolute tolerance of `np.allclose`. -/
def npatol : ℝ := 1e-8

/-- Default relative tolerance of `np.allclose`. -/
def nprtol : ℝ := 1e-5

/-- Scalar `np.allclose(x, y, atol)` test: `|x - y| <= atol + rtol * |y|`. -/
def allcloseS (x y atol : ℝ) : Prop := |x - y| ≤ atol + nprtol * |y|

/-- Elementwise `np.allclose(F, 0)` for a field, with default tolerances. -/
def allcloseZeroField (Mf : Field3) : Prop :=
  ∀ i j k c, allcloseS (Mf i j k c) 0 npatol

/-- Elementwise `np.allclose(G, 0)` for a scalar grid, with default tolerances. -/
def allcloseZeroGrid (g : GridR) : Prop :=
  ∀ i j k, allcloseS (g i j k) 0 npatol

/-- M.get_Ms (Energy_Term.py lines 171-184): per-cell norm of the stored field. -/
def get_Ms (Mf : Field3) : GridR := fun i j k => norm3 fun c => Mf i j k c

/-- M.get_m (Energy_Term.py lines 186-200): the unit magnetization, or the
all-zero array when the whole field is allclose to zero. -/
def get_m (Mf : Field3) : Field3 :=
  if allcloseZeroField Mf then fun _ _ _ _ => 0
  else fun i j k c => Mf i j k c / get_Ms Mf i j k

/-- Clamp an integer index into `[0, N-1]`; realizes the reads produced by
`np.pad(..., 'edge')` (ghost cell equals nearest boundary cell). -/
def clampIdx (N : ℕ) (hN : 0 < N) (x : ℤ) : Fin N :=
  ⟨(max 0 (min x ((N : ℤ) - 1))).toNat, by omega⟩

/-- Neumann ('edge') padded read of a field. -/
def padE (g : Field3) (x y z : ℤ) (c : Fin 3) : ℝ :=
  g (clampIdx Nx (by decide) x) (clampIdx Ny (by decide) y) (clampIdx Nz (by decide) z) c

/-- Dirichlet ('constant', value 0) padded read of a field, as produced by
`np.pad(..., 'constant', constant_values=0)`. -/
def padD (g : Field3) (x y z : ℤ) (c : Fin 3) : ℝ :=
  if h : 0 ≤ x ∧ x < (Nx : ℤ) ∧ 0 ≤ y ∧ y < (Ny : ℤ) ∧ 0 ≤ z ∧ z < (Nz : ℤ) then
    g ⟨x.toNat, by omega⟩ ⟨y.toNat, by omega⟩ ⟨z.toNat, by omega⟩ c
  else 0

/-- M.laplace (Energy_Term.py lines 269-295): second-order central differences
of `get_m` along each spatial axis with 'edge' (Neumann) padding, summed. -/
def laplace (Mf : Field3) : Field3 := fun i j k c =>
  (padE (get_m Mf) ((i : ℤ) - 1) (j : ℤ) (k : ℤ) c
      + padE (get_m Mf) ((i : ℤ) + 1) (j : ℤ) (k : ℤ) c
      - 2 * padE (get_m Mf) (i : ℤ) (j : ℤ) (k : ℤ) c) / dx ^ 2
  + (padE (get_m Mf) (i : ℤ) ((j : ℤ) - 1) (k : ℤ) c
      + padE (get_m Mf) (i : ℤ) ((j : ℤ) + 1) (k : ℤ) c
      - 2 * padE (get_m Mf) (i : ℤ) (j : ℤ) (k : ℤ) c) / dy ^ 2
  + (padE (get_m Mf) (i : ℤ) (j : ℤ) ((k : ℤ) - 1) c
      + padE (get_m Mf) (i : ℤ) (j : ℤ) ((k : ℤ) + 1) c
      - 2 * padE (get_m Mf) (i : ℤ) (j : ℤ) (k : ℤ) c) / dz ^ 2

/-- M.curl (Energy_Term.py lines 214-267): first-order central differences of
`get_m` with 'constant' 0 (Dirichlet) padding; component 0 is dzdy - dydz,
component 1 is dxdz - dzdx, component 2 is dydx - dxdy. -/
def curl (Mf : Field3) : Field3 := fun i j k =>
  ![(padD (get_m Mf) (i : ℤ) ((j : ℤ) + 1) (k : ℤ) 2
        - padD (get_m Mf) (i : ℤ) ((j : ℤ) - 1) (k : ℤ) 2) / (2 * dy)
      - (padD (get_m Mf) (i : ℤ) (j : ℤ) ((k : ℤ) + 1) 1
        - padD (get_m Mf) (i : ℤ) (j : ℤ) ((k : ℤ) - 1) 1) / (2 * dz),
    (padD (get_m Mf) (i : ℤ) (j : ℤ) ((k : ℤ) + 1) 0
        - padD (get_m Mf) (i : ℤ) (j : ℤ) ((k : ℤ) - 1) 0) / (2 * dz)
      - (padD (get_m Mf) ((i : ℤ) + 1) (j : ℤ) (k : ℤ) 2
        - padD (get_m Mf) ((i : ℤ) - 1) (j : ℤ) (k : ℤ) 2) / (2 * dx),
    (padD (get_m Mf) ((i : ℤ) + 1) (j : ℤ) (k : ℤ) 1
        - padD (get_m Mf) ((i : ℤ) - 1) (j : ℤ) (k : ℤ) 1) / (2 * dx)
      - (padD (get_m Mf) (i : ℤ) ((j : ℤ) + 1) (k : ℤ) 0
        - padD (get_m Mf) (i : ℤ) ((j : ℤ) - 1) (k : ℤ) 0) / (2 * dy)]

/-- Central difference along the x axis of a (unit) field with Dirichlet zero
padding, following the spec wording of `curl`. -/
def ddxD (g : Field3) (c : Fin 3) : GridR := fun i j k =>
  (padD g ((i : ℤ) + 1) (j : ℤ) (k : ℤ) c - padD g ((i : ℤ) - 1) (j : ℤ) (k : ℤ) c) / (2 * dx)

/-- Central difference along the y axis with Dirichlet zero padding. -/
def ddyD (g : Field3) (c : Fin 3) : GridR := fun i j k =>
  (padD g (i : ℤ) ((j : ℤ) + 1) (k : ℤ) c - padD g (i : ℤ) ((j : ℤ) - 1) (k : ℤ) c) / (2 * dy)

/-- Central difference along the z axis with Dirichlet zero padding. -/
def ddzD (g : Field3) (c : Fin 3) : GridR := fun i j k =>
  (padD g (i : ℤ) (j : ℤ) ((k : ℤ) + 1) c - padD g (i : ℤ) (j : ℤ) ((k : ℤ) - 1) c) / (2 * dz)

/-- Modelled from the spec: the standard vector curl of a unit field via
central differences along the two axes orthogonal to each output component,
with Dirichlet (zero) padding. -/
def curlSpec (g : Field3) : Field3 := fun i j k =>
  ![ddyD g 2 i j k - ddzD g 1 i j k,
    ddzD g 0 i j k - ddxD g 2 i j k,
    ddxD g 1 i j k - ddyD g 0 i j k]

/-- EnergyTerm.energy_density (Energy_Term.py lines 19-36), parametrized by the
effective-field computation of the concrete energy term. -/
def energy_density (eff : Field3 → Field3) (Mf : Field3) : GridR := fun i j k =>
  -mu0 / 2 * ∑ c, get_Ms Mf i j k * (get_m Mf i j k c * eff Mf i j k c)

/-- EnergyTerm.energy (Energy_Term.py lines 38-54): sum of an energy density
times the cell volume dV = dx * dy * dz. -/
def energy_from (ed : GridR) : ℝ := ∑ i, ∑ j, ∑ k, ed i j k * (dx * dy * dz)

/-- Exchange.effective_field (Energy_Term.py lines 58-82). -/
def exchange_effective_field (Aex : ℝ) (Mf : Field3) : Field3 :=
  if allcloseZeroField Mf then fun _ _ _ _ => 0
  else fun i j k c => 2 * Aex / (mu0 * get_Ms Mf i j k) * laplace Mf i j k c

/-- DMI.effective_field (Energy_Term.py lines 85-109). -/
def dmi_effective_field (Dd : ℝ) (Mf : Field3) : Field3 :=
  if allcloseZeroField Mf then fun _ _ _ _ => 0
  else fun i j k c => -(2 * Dd / (mu0 * get_Ms Mf i j k)) * curl Mf i j k c

/-- Zeeman.effective_field (Energy_Term.py lines 112-134): the external field
vector tiled over every grid cell, ignoring the field argument. -/
def zeeman_effective_field (Hv : Fin 3 → ℝ) (_Mf : Field3) : Field3 :=
  fun _ _ _ c => Hv c

/-- Zeeman.energy_density override (Energy_Term.py lines 136-152). -/
def zeeman_energy_density (Hv : Fin 3 → ℝ) (Mf : Field3) : GridR := fun i j k =>
  -mu0 * get_Ms Mf i j k * ∑ c, get_m Mf i j k c * zeeman_effective_field Hv Mf i j k c

/-- beta = 9e99 (Mean_Field.py line 5), the zero-temperature sentinel. -/
def beta : ℝ := 9e99

/-- D = 1.58e-3 (Mean_Field.py line 6). -/
def D : ℝ := 1.58e-3

/-- A = 8.78e-12 (Mean_Field.py line 7). -/
def A : ℝ := 8.78e-12

/-- B = 0.2 (Mean_Field.py line 8). -/
def B : ℝ := 0.2

/-- H = (0, 0, B / mu0) (Mean_Field.py line 10). -/
def H : Fin 3 → ℝ := fun c => if c.val = 2 then B / mu0 else 0

/-- maxiter = 12000 (Mean_Field.py line 11). -/
def maxiter : ℕ := 12000

/-- Min_Driver.Langevin (Mean_Field.py lines 15-37). -/
def Langevin (x : ℝ) : ℝ := 1 / Real.tanh x - x⁻¹

/-- Min_Driver.cal_effective_field (Mean_Field.py lines 39-71): the sum of the
three effective fields and the total energy. -/
def cal_effective_field (Mf : Field3) : Field3 × ℝ :=
  (fun i j k c =>
      exchange_effective_field A Mf i j k c + zeeman_effective_field H Mf i j k c
        + dmi_effective_field D Mf i j k c,
    energy_from (energy_density (exchange_effective_field A) Mf)
      + energy_from (zeeman_energy_density H Mf)
      + energy_from (energy_density (dmi_effective_field D) Mf))

/-- Per-cell norm of the effective field (Mean_Field.py line 97). -/
def H_norm_of (Heff : Field3) : GridR := fun i j k => norm3 fun c => Heff i j k c

/-- L_result (Mean_Field.py lines 99-105): 1 at the zero-temperature sentinel
`beta == 9e99`, otherwise the Langevin function of beta * mu0 * H_norm. -/
def L_result_of (Heff : Field3) : GridR :=
  if beta = 9e99 then fun _ _ _ => 1
  else fun i j k => Langevin (beta * mu0 * H_norm_of Heff i j k)

/-- M_new before renormalization (Mean_Field.py lines 113-115):
Ms_old * L_result * (H_eff / H_norm). -/
def M_new_of (Mf Heff : Field3) : Field3 := fun i j k c =>
  get_Ms Mf i j k * (L_result_of Heff i j k * (Heff i j k c / H_norm_of Heff i j k))

/-- Damped directional blend M_lamda = M_old + lamda * (M_new - M_old)
(Mean_Field.py line 117). -/
def M_lamda_of (Mf Heff : Field3) (lamda : ℝ) : Field3 := fun i j k c =>
  Mf i j k c + lamda * (M_new_of Mf Heff i j k c - Mf i j k c)

/-- Min_Driver.update_M (Mean_Field.py lines 73-126): unchanged field when the
effective-field norm is allclose to zero, otherwise the damped blend
renormalized to the magnitude of M_new. -/
def update_M (Mf Heff : Field3) (lamda : ℝ) : Field3 :=
  if allcloseZeroGrid (H_norm_of Heff) then Mf
  else fun i j k c =>
    M_lamda_of Mf Heff lamda i j k c / norm3 (fun c2 => M_lamda_of Mf Heff lamda i j k c2)
      * norm3 fun c2 => M_new_of Mf Heff i j k c2

/-- np.max(abs(diff)) over all entries of a field (Mean_Field.py line 176). -/
def maxAbs (f : Field3) : ℝ :=
  Finset.univ.sup' Finset.univ_nonempty
    fun p : Fin Nx × Fin Ny × Fin Nz × Fin 3 => |f p.1 p.2.1 p.2.2.1 p.2.2.2|

/-- The while loop of Min_Driver.Mean_field_difference (Mean_Field.py lines
165-182), with `fuel = maxiter - count` making the iteration cap structural. -/
def mfdLoop (tol : ℝ) : Field3 → Field3 → ℝ → ℕ → ℕ → Field3 × ℝ × ℕ
  | Mf, _, E, count, 0 => (Mf, E, count)
  | Mf, Heff, _, count, fuel + 1 =>
      let m_old := get_m Mf
      let M_new := update_M Mf Heff 0.005
      let m_new := get_m M_new
      let HE := cal_effective_field M_new
      let max_value := maxAbs fun i j k c => m_new i j k c - m_old i j k c
      if allcloseS max_value 0 tol then (M_new, HE.2, count)
      else mfdLoop tol M_new HE.1 HE.2 (count + 1) fuel

/-- Min_Driver.Mean_field_difference (Mean_Field.py lines 128-184): returns the
relaxed field, the final energy and the iteration count. -/
def Mean_field_difference (Mf : Field3) (tol : ℝ) : Field3 × ℝ × ℕ :=
  mfdLoop tol Mf (cal_effective_field Mf).1 (cal_effective_field Mf).2 0 maxiter

/-- The loop of Mean_field_difference passes its convergence check within the
given number of iterations. -/
def convergesFrom (tol : ℝ) : Field3 → Field3 → ℕ → Prop
  | _, _, 0 => False
  | Mf, Heff, fuel + 1 =>
      let m_old := get_m Mf
      let M_new := update_M Mf Heff 0.005
      let m_new := get_m M_new
      let max_value := maxAbs fun i j k c => m_new i j k c - m_old i j k c
      allcloseS max_value 0 tol
        ∨ convergesFrom tol M_new (cal_effective_field M_new).1 fuel

/-- The all-zero magnetization field. -/
def zeroField : Field3 := fun _ _ _ _ => 0

/-- An array with an explicit spatial shape (the component axis is always 3):
the shape triple together with contents indexed by unbounded naturals
(entries outside the shape are irrelevant for an array of that shape). -/
def Arr : Type := (ℕ × ℕ × ℕ) × (ℕ → ℕ → ℕ → Fin 3 → ℝ)

/-- Extend a grid-shaped field to unbounded indices (0 outside the grid). -/
def extendF (g : Field3) : ℕ → ℕ → ℕ → Fin 3 → ℝ := fun i j k c =>
  if h : i < Nx ∧ j < Ny ∧ k < Nz then g ⟨i, h.1⟩ ⟨j, h.2.1⟩ ⟨k, h.2.2⟩ c else 0

/-- Restrict unbounded-index contents to the global grid shape. -/
def restrictF (f : ℕ → ℕ → ℕ → Fin 3 → ℝ) : Field3 := fun i j k c => f i j k c

/-- Zeeman.effective_field on shape-carrying arrays: the result is
`np.tile(H, Nx * Ny * Nz).reshape((Nx, Ny, Nz, 3))`, whose shape comes from
the module constants and not from the argument. -/
def zeeman_effective_field_arr (Hv : Fin 3 → ℝ) (_a : Arr) : Arr :=
  ((Nx, Ny, Nz), fun _ _ _ c => Hv c)

/-- M.curl on shape-carrying arrays.  The difference temporaries are allocated
with the global shape `np.zeros((Nx, Ny, Nz))` and are combined elementwise
with slices of the padded input and with `np.zeros_like(get_m())`, so the
numpy broadcasting rules make the computation succeed exactly when the input
has the global spatial shape; `none` models the ValueError raised otherwise. -/
def curl_arr (a : Arr) : Option Arr :=
  if a.1 = (Nx, Ny, Nz) then some ((Nx, Ny, Nz), extendF (curl (restrictF a.2)))
  else none

/-! ### Basic facts about norms, tolerances and the physical constants -/

lemma norm3_nonneg (v : Fin 3 → ℝ) : 0 ≤ norm3 v := Real.sqrt_nonneg _

lemma norm3_zero : norm3 (fun _ => 0) = 0 := by
  simp [norm3]

lemma norm3_eq_zero_iff (v : Fin 3 → ℝ) :
    norm3 v = 0 ↔ v 0 = 0 ∧ v 1 = 0 ∧ v 2 = 0 := by
  unfold norm3
  rw [Real.sqrt_eq_zero (by positivity)]
  constructor
  · intro h
    have h0 : v 0 ^ 2 = 0 :=
      le_antisymm (by nlinarith [sq_nonneg (v 1), sq_nonneg (v 2)]) (sq_nonneg _)
    have h1 : v 1 ^ 2 = 0 :=
      le_antisymm (by nlinarith [sq_nonneg (v 0), sq_nonneg (v 2)]) (sq_nonneg _)
    have h2 : v 2 ^ 2 = 0 :=
      le_antisymm (by nlinarith [sq_nonneg (v 0), sq_nonneg (v 1)]) (sq_nonneg _)
    exact ⟨(pow_eq_zero_iff two_ne_zero).mp h0, (pow_eq_zero_iff two_ne_zero).mp h1,
      (pow_eq_zero_iff two_ne_zero).mp h2⟩
  · rintro ⟨h0, h1, h2⟩
    rw [h0, h1, h2]
    ring

lemma norm3_smul (a : ℝ) (v : Fin 3 → ℝ) :
    norm3 (fun c => a * v c) = |a| * norm3 v := by
  unfold norm3
  rw [show (a * v 0) ^ 2 + (a * v 1) ^ 2 + (a * v 2) ^ 2
      = a ^ 2 * (v 0 ^ 2 + v 1 ^ 2 + v 2 ^ 2) by ring]
  rw [Real.sqrt_mul (sq_nonneg a), Real.sqrt_sq_eq_abs]

lemma mu0_pos : 0 < mu0 := by
  have h := Real.pi_pos
  unfold mu0
  nlinarith

lemma mu0_lt : mu0 < 1.3e-6 := by
  have h := Real.pi_lt_315
  have h0 := Real.pi_pos
  unfold mu0
  nlinarith

lemma BoverMu0_pos : 0 < B / mu0 := div_pos (by norm_num [B]) mu0_pos

lemma BoverMu0_gt : 1e-8 < B / mu0 := by
  rw [lt_div_iff mu0_pos]
  have h := mu0_lt
  have h0 := mu0_pos
  unfold B
  nlinarith

lemma H_val_0 : H 0 = 0 := by
  simp [H]

lemma H_val_1 : H 1 = 0 := by
  simp [H]

lemma H_val_2 : H 2 = B / mu0 := by
  simp [H]

lemma norm3_H : norm3 H = B / mu0 := by
  unfold norm3
  rw [H_val_0, H_val_1, H_val_2]
  rw [show (0 : ℝ) ^ 2 + 0 ^ 2 + (B / mu0) ^ 2 = (B / mu0) ^ 2 by ring]
  exact Real.sqrt_sq BoverMu0_pos.le

/-! ### Facts about the zero field -/

lemma allcloseZeroField_zeroField : allcloseZeroField zeroField := by
  intro i j k c
  simp [allcloseS, zeroField, npatol, nprtol]
  norm_num

lemma get_m_zeroField : get_m zeroField = zeroField := by
  unfold get_m
  rw [if_pos allcloseZeroField_zeroField]
  rfl

lemma get_Ms_zeroField : get_Ms zeroField = fun _ _ _ => 0 := by
  funext i j k
  simp [get_Ms, zeroField, norm3_zero]

lemma H_norm_tile : H_norm_of (fun _ _ _ c => H c) = fun _ _ _ => B / mu0 := by
  funext i j k
  exact norm3_H

lemma not_allcloseZeroGrid_tile :
    ¬ allcloseZeroGrid (H_norm_of (fun _ _ _ c => H c)) := by
  intro hall
  have h := hall 0 0 0
  rw [H_norm_tile] at h
  unfold allcloseS npatol nprtol at h
  rw [sub_zero, abs_zero, mul_zero, add_zero, abs_of_nonneg BoverMu0_pos.le] at h
  linarith [BoverMu0_gt]

lemma update_M_zeroField : update_M zeroField (fun _ _ _ c => H c) 0.005 = zeroField := by
  unfold update_M
  rw [if_neg not_allcloseZeroGrid_tile]
  funext i j k c
  have hnew : ∀ c2 : Fin 3, M_new_of zeroField (fun _ _ _ c => H c) i j k c2 = 0 := by
    intro c2
    simp [M_new_of, get_Ms, zeroField, norm3_zero]
  have hlam : ∀ c2 : Fin 3,
      M_lamda_of zeroField (fun _ _ _ c => H c) 0.005 i j k c2 = 0 := by
    intro c2
    simp [M_lamda_of, zeroField, hnew]
  rw [show (fun c2 => M_lamda_of zeroField (fun _ _ _ c => H c) 0.005 i j k c2)
      = (fun _ : Fin 3 => (0 : ℝ)) from funext hlam]
  rw [hlam c]
  simp [zeroField]

lemma calEff_zeroField : cal_effective_field zeroField = (fun _ _ _ c => H c, 0) := by
  unfold cal_effective_field
  refine Prod.ext ?_ ?_
  · funext i j k c
    show exchange_effective_field A zeroField i j k c
        + zeeman_effective_field H zeroField i j k c
        + dmi_effective_field D zeroField i j k c = H c
    unfold exchange_effective_field dmi_effective_field zeeman_effective_field
    rw [if_pos allcloseZeroField_zeroField, if_pos allcloseZeroField_zeroField]
    simp
  · show energy_from (energy_density (exchange_effective_field A) zeroField)
      + energy_from (zeeman_energy_density H zeroField)
      + energy_from (energy_density (dmi_effective_field D) zeroField) = 0
    simp [energy_from, energy_density, zeeman_energy_density, get_m_zeroField, zeroField]

/-! ### Facts about maxAbs and the convergence test -/

lemma maxAbs_le_iff (f : Field3) (a : ℝ) :
    maxAbs f ≤ a ↔ ∀ i j k c, |f i j k c| ≤ a := by
  unfold maxAbs
  rw [Finset.sup'_le_iff]
  constructor
  · intro h i j k c
    exact h (i, j, k, c) (Finset.mem_univ _)
  · rintro h ⟨i, j, k, c⟩ _
    exact h i j k c

lemma maxAbs_nonneg (f : Field3) : 0 ≤ maxAbs f :=
  le_trans (abs_nonneg (f 0 0 0 0))
    (Finset.le_sup' (fun p : Fin Nx × Fin Ny × Fin Nz × Fin 3 =>
      |f p.1 p.2.1 p.2.2.1 p.2.2.2|) (Finset.mem_univ (0, 0, 0, 0)))

lemma allcloseS_maxAbs_iff (f : Field3) (tol : ℝ) :
    allcloseS (maxAbs f) 0 tol ↔ ∀ i j k c, |f i j k c| ≤ tol := by
  unfold allcloseS
  rw [sub_zero, abs_zero, mul_zero, add_zero, abs_of_nonneg (maxAbs_nonneg f),
    maxAbs_le_iff]

lemma maxAbs_const_zero : maxAbs (fun _ _ _ _ => 0) = 0 := by
  unfold maxAbs
  simp

/-! ### Facts about the relaxation loop -/

lemma mfdLoop_succ (tol : ℝ) (Mf Heff : Field3) (E : ℝ) (count fuel : ℕ) :
    mfdLoop tol Mf Heff E count (fuel + 1)
      = if allcloseS (maxAbs fun i j k c =>
            get_m (update_M Mf Heff 0.005) i j k c - get_m Mf i j k c) 0 tol then
          (update_M Mf Heff 0.005, (cal_effective_field (update_M Mf Heff 0.005)).2, count)
        else
          mfdLoop tol (update_M Mf Heff 0.005) (cal_effective_field (update_M Mf Heff 0.005)).1
            (cal_effective_field (update_M Mf Heff 0.005)).2 (count + 1) fuel := rfl

lemma mfdLoop_count_le (tol : ℝ) :
    ∀ (fuel : ℕ) (Mf Heff : Field3) (E : ℝ) (count : ℕ),
      (mfdLoop tol Mf Heff E count fuel).2.2 ≤ count + fuel := by
  intro fuel
  induction fuel with
  | zero =>
      intro Mf Heff E count
      simp [mfdLoop]
  | succ n ih =>
      intro Mf Heff E count
      simp only [mfdLoop]
      split_ifs with h
      · show count ≤ count + (n + 1)
        omega
      · exact le_trans (ih _ _ _ _) (by omega)

lemma mfdLoop_count_eq_iff (tol : ℝ) :
    ∀ (fuel : ℕ) (Mf Heff : Field3) (E : ℝ) (count : ℕ),
      ((mfdLoop tol Mf Heff E count fuel).2.2 = count + fuel
        ↔ ¬ convergesFrom tol Mf Heff fuel) := by
  intro fuel
  induction fuel with
  | zero =>
      intro Mf Heff E count
      simp [mfdLoop, convergesFrom]
  | succ n ih =>
      intro Mf Heff E count
      simp only [mfdLoop, convergesFrom]
      split_ifs with h
      · constructor
        · intro hc
          exfalso
          have hc2 : count = count + (n + 1) := hc
          omega
        · intro hnc
          exact absurd (Or.inl h) hnc
      · rw [show count + (n + 1) = (count + 1) + n by omega, ih]
        simp [h]

/-! ### Concrete fields used as witnesses and counterexamples -/

/-- The unit vector (0, 0, 1). -/
def e3 : Fin 3 → ℝ := fun c => if c.val = 2 then 1 else 0

/-- The uniform magnetization field (0, 0, 1) in every cell. -/
def e3Field : Field3 := fun _ _ _ => e3

/-- The constant field with every entry 1. -/
def oneField : Field3 := fun _ _ _ _ => 1

/-- The constant field with every entry 2. -/
def twoField : Field3 := fun _ _ _ _ => 2

/-- An effective field that vanishes at cell (0,0,0) and is (0,0,1) elsewhere. -/
def HeffCE : Field3 := fun i j k c =>
  if i.val = 0 ∧ j.val = 0 ∧ k.val = 0 then 0 else e3 c

lemma e3_0 : e3 0 = 0 := by simp [e3]

lemma e3_1 : e3 1 = 0 := by simp [e3]

lemma e3_2 : e3 2 = 1 := by simp [e3]

lemma norm3_e3 : norm3 e3 = 1 := by
  unfold norm3
  rw [e3_0, e3_1, e3_2]
  norm_num

lemma not_allcloseZeroField_e3Field : ¬ allcloseZeroField e3Field := by
  intro hall
  have h := hall 0 0 0 2
  unfold allcloseS npatol nprtol at h
  rw [show e3Field 0 0 0 2 = 1 from e3_2] at h
  rw [sub_zero, abs_zero, mul_zero, add_zero, abs_one] at h
  norm_num at h

lemma get_Ms_e3Field : ∀ i j k, get_Ms e3Field i j k = 1 := fun _ _ _ => norm3_e3

lemma get_m_e3Field : get_m e3Field = e3Field := by
  unfold get_m
  rw [if_neg not_allcloseZeroField_e3Field]
  funext i j k c
  show e3Field i j k c / get_Ms e3Field i j k = e3Field i j k c
  rw [get_Ms_e3Field i j k, div_one]

lemma L_result_of_one (Heff : Field3) : L_result_of Heff = fun _ _ _ => 1 := by
  unfold L_result_of
  have hb : beta = 9e99 := rfl
  rw [if_pos hb]

lemma H_norm_of_e3Field : ∀ i j k, H_norm_of e3Field i j k = 1 :=
  fun _ _ _ => norm3_e3

lemma not_allcloseZeroGrid_e3Field : ¬ allcloseZeroGrid (H_norm_of e3Field) := by
  intro hall
  have h := hall 0 0 0
  unfold allcloseS npatol nprtol at h
  rw [H_norm_of_e3Field 0 0 0, sub_zero, abs_zero, mul_zero, add_zero, abs_one] at h
  norm_num at h

lemma HeffCE_norm : ∀ i j k, H_norm_of HeffCE i j k
    = if i.val = 0 ∧ j.val = 0 ∧ k.val = 0 then 0 else 1 := by
  intro i j k
  unfold H_norm_of HeffCE
  by_cases h : i.val = 0 ∧ j.val = 0 ∧ k.val = 0
  · simp only [if_pos h]
    exact norm3_zero
  · simp only [if_neg h]
    exact norm3_e3

lemma not_allcloseZeroGrid_HeffCE : ¬ allcloseZeroGrid (H_norm_of HeffCE) := by
  intro hall
  have h := hall 1 0 0
  unfold allcloseS npatol nprtol at h
  rw [HeffCE_norm 1 0 0, if_neg (by decide), sub_zero, abs_zero, mul_zero, add_zero,
    abs_one] at h
  norm_num at h

/-! ### Claim theorems -/

/-- C1 (counterexample): for the all-zero input field the Zeeman effective
field is not the all-zero array: its z component at cell (0,0,0) equals
B / mu0 ≠ 0, because Zeeman.effective_field tiles the constant external field
H = (0, 0, B/mu0) regardless of the magnetization argument. -/
theorem zeeman_not_zero_on_zero_field :
    zeeman_effective_field H zeroField 0 0 0 2 ≠ 0 := by
  show H 2 ≠ 0
  rw [H_val_2]
  exact ne_of_gt BoverMu0_pos

/-- C1 (amended): for the all-zero input field, laplace, curl and the Exchange
and DMI effective fields all return the all-zero array; the Zeeman effective
field returns the external field H tiled over every cell; and (in the
exact-real model, where a division by zero yields 0) Mean_field_difference
returns the field unchanged with total energy 0 and iteration count 0 at the
very first convergence check. -/
theorem zero_field_fixed_point :
    (∀ i j k c, laplace zeroField i j k c = 0)
  ∧ (∀ i j k c, curl zeroField i j k c = 0)
  ∧ (∀ i j k c, exchange_effective_field A zeroField i j k c = 0)
  ∧ (∀ i j k c, dmi_effective_field D zeroField i j k c = 0)
  ∧ (∀ i j k c, zeeman_effective_field H zeroField i j k c = H c)
  ∧ Mean_field_difference zeroField 1e-4 = (zeroField, 0, 0) := by
  refine ⟨?_, ?_, ?_, ?_, fun _ _ _ _ => rfl, ?_⟩
  · intro i j k c
    simp only [laplace, get_m_zeroField, padE, zeroField]
    ring
  · intro i j k c
    fin_cases c <;> simp [curl, get_m_zeroField, padD, zeroField]
  · intro i j k c
    unfold exchange_effective_field
    rw [if_pos allcloseZeroField_zeroField]
  · intro i j k c
    unfold dmi_effective_field
    rw [if_pos allcloseZeroField_zeroField]
  · unfold Mean_field_difference
    simp only [calEff_zeroField]
    rw [show maxiter = 11999 + 1 from rfl]
    rw [mfdLoop_succ]
    rw [update_M_zeroField]
    simp only [calEff_zeroField, get_m_zeroField]
    rw [show (fun i j k c => zeroField i j k c - zeroField i j k c)
        = ((fun _ _ _ _ => (0 : ℝ)) : Field3) from ?hz]
    case hz =>
      funext i j k c
      simp [zeroField]
    rw [maxAbs_const_zero]
    rw [if_pos (by unfold allcloseS nprtol; norm_num)]

/-- C2: Mean_field_difference always stops with an iteration count of at most
maxiter = 12000; the returned count equals maxiter exactly when no iteration
passed the convergence check; and the convergence check is an
absolute-tolerance test: it passes iff every per-cell absolute change of the
unit field is at most tol. -/
theorem Mean_field_difference_terminates (Mf : Field3) (tol : ℝ) :
    (Mean_field_difference Mf tol).2.2 ≤ maxiter
  ∧ ((Mean_field_difference Mf tol).2.2 = maxiter
      ↔ ¬ convergesFrom tol Mf (cal_effective_field Mf).1 maxiter)
  ∧ (∀ d : Field3, allcloseS (maxAbs d) 0 tol ↔ ∀ i j k c, |d i j k c| ≤ tol) := by
  refine ⟨?_, ?_, fun d => allcloseS_maxAbs_iff d tol⟩
  · have h := mfdLoop_count_le tol maxiter Mf (cal_effective_field Mf).1
      (cal_effective_field Mf).2 0
    simpa [Mean_field_difference] using h
  · have h := mfdLoop_count_eq_iff tol maxiter Mf (cal_effective_field Mf).1
      (cal_effective_field Mf).2 0
    simpa [Mean_field_difference] using h

/-- C2 witness: the termination bound and the non-convergence report at the
all-zero field with the default tolerance. -/
theorem Mean_field_difference_terminates_witness :
    (Mean_field_difference zeroField 1e-4).2.2 ≤ maxiter
  ∧ ((Mean_field_difference zeroField 1e-4).2.2 = maxiter
      ↔ ¬ convergesFrom 1e-4 zeroField (cal_effective_field zeroField).1 maxiter) :=
  ⟨(Mean_field_difference_terminates zeroField 1e-4).1,
   (Mean_field_difference_terminates zeroField 1e-4).2.1⟩

/-- C3: laplace of a spatially uniform field is exactly zero everywhere: the
'edge' (Neumann) padding replicates the constant into the ghost cells, so
every central second difference vanishes. -/
theorem laplace_uniform_zero (v : Fin 3 → ℝ) :
    ∀ i j k c, laplace (fun _ _ _ => v) i j k c = 0 := by
  intro i j k c
  obtain ⟨w, hw⟩ : ∃ w : Fin 3 → ℝ, get_m (fun _ _ _ => v) = fun _ _ _ => w := by
    by_cases h : allcloseZeroField (fun _ _ _ => v)
    · exact ⟨fun _ => 0, by rw [get_m, if_pos h]⟩
    · refine ⟨fun c2 => v c2 / norm3 v, ?_⟩
      rw [get_m, if_neg h]
      rfl
  simp only [laplace, hw, padE]
  ring

/-- C4: curl computes exactly the spec's standard vector curl of the unit
field under Dirichlet (zero) padding; in particular at the boundary it sees
zero ghost cells: for the uniform unit field (0,0,1), the x component of curl
at boundary cell (0,0,0) is 1/(2*dy) (edge replication would give 0). -/
theorem curl_matches_spec :
    (∀ Mf i j k c, curl Mf i j k c = curlSpec (get_m Mf) i j k c)
  ∧ curl e3Field 0 0 0 0 = 1 / (2 * dy) := by
  constructor
  · intro Mf i j k c
    fin_cases c <;> rfl
  · have h0x : ((0 : Fin Nx) : ℤ) = 0 := by decide
    have h0y : ((0 : Fin Ny) : ℤ) = 0 := by decide
    have h0z : ((0 : Fin Nz) : ℤ) = 0 := by decide
    have hp1 : padD e3Field 0 1 0 2 = 1 := by
      unfold padD
      rw [dif_pos (by decide)]
      exact e3_2
    have hp2 : padD e3Field 0 (-1) 0 2 = 0 := by
      unfold padD
      rw [dif_neg (by decide)]
    have hp3 : padD e3Field 0 0 1 1 = 0 := by
      unfold padD
      rw [dif_pos (by decide)]
      exact e3_1
    have hp4 : padD e3Field 0 0 (-1) 1 = 0 := by
      unfold padD
      rw [dif_neg (by decide)]
    show curl e3Field 0 0 0 0 = 1 / (2 * dy)
    simp only [curl, get_m_e3Field, h0x, h0y, h0z, Matrix.cons_val_zero,
      zero_add, zero_sub]
    rw [hp1, hp2, hp3, hp4]
    ring

/-- C5: Exchange and DMI use the inherited energy density
-(mu0/2) * Σ_c unit * Ms * effectiveField (collapsing the component axis);
Zeeman overrides it with -mu0 * Ms * Σ_c unit * H; and on Zeeman's effective
field the inherited formula gives exactly half of the override. -/
theorem energy_density_prefactors (Mf : Field3) (i : Fin Nx) (j : Fin Ny) (k : Fin Nz) :
    energy_density (exchange_effective_field A) Mf i j k
      = -(mu0 / 2) * ∑ c, get_m Mf i j k c
          * (get_Ms Mf i j k * exchange_effective_field A Mf i j k c)
  ∧ energy_density (dmi_effective_field D) Mf i j k
      = -(mu0 / 2) * ∑ c, get_m Mf i j k c
          * (get_Ms Mf i j k * dmi_effective_field D Mf i j k c)
  ∧ zeeman_energy_density H Mf i j k
      = -mu0 * get_Ms Mf i j k * ∑ c, get_m Mf i j k c * H c
  ∧ energy_density (zeeman_effective_field H) Mf i j k
      = 1 / 2 * zeeman_energy_density H Mf i j k := by
  refine ⟨?_, ?_, rfl, ?_⟩
  · simp only [energy_density, Fin.sum_univ_three]
    ring
  · simp only [energy_density, Fin.sum_univ_three]
    ring
  · simp only [energy_density, zeeman_energy_density, zeeman_effective_field,
      Fin.sum_univ_three]
    ring

/-- C6: the Zeeman effective field is independent of the magnetization: any
two distinct nonzero input fields yield identical arrays, equal to the
external field H tiled over every cell. -/
theorem zeeman_field_independent (M1 M2 : Field3)
    (hne : M1 ≠ M2) (h1 : M1 ≠ zeroField) (h2 : M2 ≠ zeroField) :
    zeeman_effective_field H M1 = zeeman_effective_field H M2
  ∧ ∀ i j k c, zeeman_effective_field H M1 i j k c = H c :=
  ⟨rfl, fun _ _ _ _ => rfl⟩

/-- C6 witness: the distinct nonzero constant fields 1 and 2. -/
theorem zeeman_field_independent_witness :
    zeeman_effective_field H oneField = zeeman_effective_field H twoField
  ∧ zeeman_effective_field H oneField 0 0 0 2 = H 2 := by
  have hne : oneField ≠ twoField := by
    intro h
    have h4 := congrFun (congrFun (congrFun (congrFun h 0) 0) 0) 0
    norm_num [oneField, twoField] at h4
  have h1 : oneField ≠ zeroField := by
    intro h
    have h4 := congrFun (congrFun (congrFun (congrFun h 0) 0) 0) 0
    norm_num [oneField, zeroField] at h4
  have h2 : twoField ≠ zeroField := by
    intro h
    have h4 := congrFun (congrFun (congrFun (congrFun h 0) 0) 0) 0
    norm_num [twoField, zeroField] at h4
  exact ⟨(zeeman_field_independent oneField twoField hne h1 h2).1,
    (zeeman_field_independent oneField twoField hne h1 h2).2 0 0 0 2⟩

/-- C7: when the per-cell norm of the effective field is allclose to zero,
update_M returns the old magnetization array exactly unchanged. -/
theorem update_M_zero_Heff (Mf Heff : Field3) (lamda : ℝ)
    (h : allcloseZeroGrid (H_norm_of Heff)) :
    update_M Mf Heff lamda = Mf := by
  unfold update_M
  rw [if_pos h]

/-- C7 witness: the zero effective field on the uniform field (0,0,1). -/
theorem update_M_zero_Heff_witness : update_M e3Field zeroField 0.005 = e3Field := by
  refine update_M_zero_Heff e3Field zeroField 0.005 ?_
  intro i j k
  have hn : H_norm_of zeroField i j k = 0 := norm3_zero
  rw [show allcloseS (H_norm_of zeroField i j k) 0 npatol
      = allcloseS 0 0 npatol from by rw [hn]]
  unfold allcloseS npatol nprtol
  norm_num

/-- C8: Mean_field_difference is a pure, deterministic computation: two runs
from equal initial fields with the same tolerance return identical final
fields, identical final energies and identical iteration counts. -/
theorem Mean_field_difference_deterministic (M1 M2 : Field3) (tol : ℝ)
    (h : M1 = M2) :
    (Mean_field_difference M1 tol).1 = (Mean_field_difference M2 tol).1
  ∧ (Mean_field_difference M1 tol).2.1 = (Mean_field_difference M2 tol).2.1
  ∧ (Mean_field_difference M1 tol).2.2 = (Mean_field_difference M2 tol).2.2 := by
  subst h
  exact ⟨rfl, rfl, rfl⟩

/-- C8 witness: two runs from the uniform field (0,0,1). -/
theorem Mean_field_difference_deterministic_witness :
    (Mean_field_difference e3Field 1e-4).1 = (Mean_field_difference e3Field 1e-4).1
  ∧ (Mean_field_difference e3Field 1e-4).2.1 = (Mean_field_difference e3Field 1e-4).2.1
  ∧ (Mean_field_difference e3Field 1e-4).2.2 = (Mean_field_difference e3Field 1e-4).2.2 :=
  Mean_field_difference_deterministic e3Field e3Field 1e-4 rfl

/-- C9 (amended): at the zero-temperature sentinel beta = 9e99 (Langevin
factor exactly 1), if the effective-field norm is not globally allclose to
zero, is nonzero at every cell, and the damped blend M_old + lamda*(M_new -
M_old) is nonzero at every cell, then update_M preserves the per-cell
magnitude: the result's per-cell Euclidean norm equals Ms_old everywhere. -/
theorem update_M_preserves_magnitude (Mf Heff : Field3) (lamda : ℝ)
    (hglob : ¬ allcloseZeroGrid (H_norm_of Heff))
    (hcell : ∀ i j k, H_norm_of Heff i j k ≠ 0)
    (hblend : ∀ i j k, ¬ (M_lamda_of Mf Heff lamda i j k 0 = 0
        ∧ M_lamda_of Mf Heff lamda i j k 1 = 0
        ∧ M_lamda_of Mf Heff lamda i j k 2 = 0)) :
    ∀ i j k, norm3 (fun c => update_M Mf Heff lamda i j k c) = get_Ms Mf i j k := by
  intro i j k
  have hHn_pos : 0 < H_norm_of Heff i j k :=
    lt_of_le_of_ne (norm3_nonneg _) (Ne.symm (hcell i j k))
  have hMnew : norm3 (fun c => M_new_of Mf Heff i j k c) = get_Ms Mf i j k := by
    have he : (fun c => M_new_of Mf Heff i j k c)
        = fun c => get_Ms Mf i j k / H_norm_of Heff i j k * Heff i j k c := by
      funext c
      unfold M_new_of
      rw [L_result_of_one]
      simp only []
      ring
    rw [he, norm3_smul]
    rw [abs_of_nonneg (div_nonneg
      (show (0 : ℝ) ≤ get_Ms Mf i j k from norm3_nonneg _) hHn_pos.le)]
    rw [show norm3 (Heff i j k) = H_norm_of Heff i j k from rfl]
    exact div_mul_cancel₀ _ (hcell i j k)
  have hMlam_pos : 0 < norm3 (fun c => M_lamda_of Mf Heff lamda i j k c) := by
    rcases (norm3_nonneg (fun c => M_lamda_of Mf Heff lamda i j k c)).lt_or_eq
      with hlt | heq
    · exact hlt
    · exact absurd ((norm3_eq_zero_iff _).mp heq.symm) (hblend i j k)
  have hupd : (fun c => update_M Mf Heff lamda i j k c)
      = fun c => M_lamda_of Mf Heff lamda i j k c
          / norm3 (fun c2 => M_lamda_of Mf Heff lamda i j k c2)
          * norm3 (fun c2 => M_new_of Mf Heff i j k c2) := by
    funext c
    rw [update_M, if_neg hglob]
  rw [hupd]
  rw [show (fun c => M_lamda_of Mf Heff lamda i j k c
        / norm3 (fun c2 => M_lamda_of Mf Heff lamda i j k c2)
        * norm3 (fun c2 => M_new_of Mf Heff i j k c2))
      = fun c => norm3 (fun c2 => M_new_of Mf Heff i j k c2)
          / norm3 (fun c2 => M_lamda_of Mf Heff lamda i j k c2)
          * M_lamda_of Mf Heff lamda i j k c from by funext c; ring]
  rw [norm3_smul, abs_of_nonneg (div_nonneg (norm3_nonneg _) hMlam_pos.le)]
  rw [div_mul_cancel₀ _ (ne_of_gt hMlam_pos)]
  exact hMnew

/-- C9 witness: uniform magnetization (0,0,1) with uniform effective field
(0,0,1): the updated field has per-cell norm equal to Ms_old = 1. -/
theorem update_M_preserves_magnitude_witness :
    norm3 (fun c => update_M e3Field e3Field 0.005 0 0 0 c) = get_Ms e3Field 0 0 0 := by
  refine update_M_preserves_magnitude e3Field e3Field 0.005
    not_allcloseZeroGrid_e3Field (fun i j k => ?_) (fun i j k => ?_) 0 0 0
  · rw [H_norm_of_e3Field i j k]
    norm_num
  · intro hz
    have h2 := hz.2.2
    have hM : M_lamda_of e3Field e3Field 0.005 i j k 2 = 1 := by
      unfold M_lamda_of M_new_of
      rw [L_result_of_one]
      simp only []
      rw [H_norm_of_e3Field i j k, get_Ms_e3Field i j k]
      rw [show e3Field i j k 2 = 1 from e3_2]
      norm_num
    rw [hM] at h2
    norm_num at h2

/-- C9 (counterexample): the claim as stated is false: with the uniform
magnetization (0,0,1) and the effective field that vanishes only at cell
(0,0,0) (its norm is not globally allclose to zero, and the damped blend is
nonzero at every cell), the updated magnitude at cell (0,0,0) is 0 while
Ms_old = 1 there — the per-cell division by the zero norm destroys the
magnitude at that cell. -/
theorem update_M_magnitude_counterexample :
    ¬ (∀ (Mf Heff : Field3) (lamda : ℝ),
        ¬ allcloseZeroGrid (H_norm_of Heff) →
        (∀ i j k, ¬ (M_lamda_of Mf Heff lamda i j k 0 = 0
            ∧ M_lamda_of Mf Heff lamda i j k 1 = 0
            ∧ M_lamda_of Mf Heff lamda i j k 2 = 0)) →
        ∀ i j k, norm3 (fun c => update_M Mf Heff lamda i j k c) = get_Ms Mf i j k) := by
  intro hcl
  have horigin : ∀ c : Fin 3, HeffCE 0 0 0 c = 0 := by
    intro c
    unfold HeffCE
    rw [if_pos (by decide)]
  have hMnew0 : ∀ c : Fin 3, M_new_of e3Field HeffCE 0 0 0 c = 0 := by
    intro c
    unfold M_new_of
    rw [horigin c]
    simp
  have hblend : ∀ i j k, ¬ (M_lamda_of e3Field HeffCE 0.005 i j k 0 = 0
      ∧ M_lamda_of e3Field HeffCE 0.005 i j k 1 = 0
      ∧ M_lamda_of e3Field HeffCE 0.005 i j k 2 = 0) := by
    intro i j k hz
    have h2 := hz.2.2
    by_cases h : i.val = 0 ∧ j.val = 0 ∧ k.val = 0
    · have hMn : M_new_of e3Field HeffCE i j k 2 = 0 := by
        unfold M_new_of
        rw [show HeffCE i j k 2 = 0 from by unfold HeffCE; rw [if_pos h]]
        simp
      have hM : M_lamda_of e3Field HeffCE 0.005 i j k 2 = 0.995 := by
        unfold M_lamda_of
        rw [hMn, show e3Field i j k 2 = 1 from e3_2]
        norm_num
      rw [hM] at h2
      norm_num at h2
    · have hMn : M_new_of e3Field HeffCE i j k 2 = 1 := by
        unfold M_new_of
        rw [L_result_of_one]
        simp only []
        rw [show HeffCE i j k 2 = e3 2 from by unfold HeffCE; rw [if_neg h],
          HeffCE_norm i j k, if_neg h, get_Ms_e3Field i j k, e3_2]
        norm_num
      have hM : M_lamda_of e3Field HeffCE 0.005 i j k 2 = 1 := by
        unfold M_lamda_of
        rw [hMn, show e3Field i j k 2 = 1 from e3_2]
        norm_num
      rw [hM] at h2
      norm_num at h2
  have hres := hcl e3Field HeffCE 0.005 not_allcloseZeroGrid_HeffCE hblend 0 0 0
  have hzero : norm3 (fun c => update_M e3Field HeffCE 0.005 0 0 0 c) = 0 := by
    have hupd : (fun c => update_M e3Field HeffCE 0.005 0 0 0 c)
        = fun _ : Fin 3 => (0 : ℝ) := by
      funext c
      rw [update_M, if_neg not_allcloseZeroGrid_HeffCE]
      show M_lamda_of e3Field HeffCE 0.005 0 0 0 c
          / norm3 (fun c2 => M_lamda_of e3Field HeffCE 0.005 0 0 0 c2)
          * norm3 (fun c2 => M_new_of e3Field HeffCE 0 0 0 c2) = 0
      rw [show (fun c2 => M_new_of e3Field HeffCE 0 0 0 c2)
          = fun _ : Fin 3 => (0 : ℝ) from funext hMnew0]
      rw [norm3_zero, mul_zero]
    rw [hupd]
    exact norm3_zero
  rw [hzero, get_Ms_e3Field 0 0 0] at hres
  norm_num at hres

/-- A zero array of the global shape, used as a C10 witness input. -/
def a0 : Arr := ((Nx, Ny, Nz), fun _ _ _ _ => 0)

/-- The curl output on `a0`, used as a C10 witness output. -/
def b0 : Arr := ((Nx, Ny, Nz), extendF (curl (restrictF fun _ _ _ _ => 0)))

/-- C10: the grid shape is fixed by the module constants (Nx, Ny, Nz) =
(60, 60, 12): Zeeman.effective_field always returns an array of that global
shape regardless of its input array; curl succeeds exactly on arrays of the
global spatial shape; and under that precondition both operations return an
array of the same shape as the input. -/
theorem shape_contract (a : Arr) :
    (Nx, Ny, Nz) = (60, 60, 12)
  ∧ (zeeman_effective_field_arr H a).1 = (Nx, Ny, Nz)
  ∧ ((curl_arr a).isSome ↔ a.1 = (Nx, Ny, Nz))
  ∧ (a.1 = (Nx, Ny, Nz) → (zeeman_effective_field_arr H a).1 = a.1)
  ∧ ∀ b, curl_arr a = some b → b.1 = a.1 := by
  refine ⟨rfl, rfl, ?_, ?_, ?_⟩
  · unfold curl_arr
    by_cases h : a.1 = (Nx, Ny, Nz)
    · rw [if_pos h]
      simp [h]
    · rw [if_neg h]
      simp [h]
  · intro h
    rw [h]
    rfl
  · intro b hb
    unfold curl_arr at hb
    by_cases h : a.1 = (Nx, Ny, Nz)
    · rw [if_pos h] at hb
      rw [← Option.some.inj hb, h]
    · rw [if_neg h] at hb
      exact absurd hb (by simp)

/-- C10 witness: the zero array of the global shape. -/
theorem shape_contract_witness :
    ((curl_arr a0).isSome ↔ a0.1 = (Nx, Ny, Nz))
  ∧ (zeeman_effective_field_arr H a0).1 = a0.1
  ∧ b0.1 = a0.1 :=
  ⟨(shape_contract a0).2.2.1,
   (shape_contract a0).2.2.2.1 rfl,
   (shape_contract a0).2.2.2.2 b0
     (by unfold curl_arr; rw [if_pos (show a0.1 = (Nx, Ny, Nz) from rfl)]; rfl)⟩

end Micromag
